import Mathlib

/-!
Verification of the CUGL asset-loading pipeline vendored in the farmville
repository. The definitions below are a shallow embedding of the loader and
scheduler code:

* `LoaderState` and its operations embed the `BaseLoader`/`Loader<T>` layers
  of `src/cugl/include/cugl/core/assets/CULoader.h`. The C++ asset table
  `_assets : unordered_map<string, shared_ptr<T>>` is modelled by its key set
  (the stored asset values play no role in the verified properties), the
  pending set `_queue : unordered_set<string>` by a `Finset String`, and the
  `_reserved : size_t` counter by a `Nat`.
* `materialize` and `fontRead` embed `FontLoader::materialize` and
  `FontLoader::read` of `src/cugl/source/graphics/loaders/CUFontLoader.cpp`
  (the synchronous path of `read`; the asynchronous path runs the same
  `enqueue`/`preload`/`materialize` steps inside a worker task). Whether the
  underlying font file parses and its atlases store successfully is abstracted
  by a boolean oracle.
* The directory scheduler of `src/cugl/source/core/assets/CUAssetManager.cpp`
  (`loadDirectory`, `loadDirectoryAsync`, `readCategory`, `sync`) is embedded
  further below as a state machine producing a trace of dispatch and barrier
  events.
-/

namespace CUGL

/-- State of a typed loader (`Loader<T>` in CULoader.h): the key set of the
loaded-asset table `_assets`, the pending (in-flight) key set `_queue`, and
the reserved counter `_reserved` of the `BaseLoader` base. -/
structure LoaderState where
  assets : Finset String
  queue : Finset String
  reserved : Nat
deriving DecidableEq

/-- CULoader.h line 762: `loadCount()` returns `_assets.size()`. -/
def loadCount (s : LoaderState) : Nat := s.assets.card

/-- CULoader.h line 773: `inFlight()` returns `_queue.size()`. -/
def inFlight (s : LoaderState) : Nat := s.queue.card

/-- CULoader.h line 640: `waitCount()` returns `_reserved + inFlight()`. -/
def waitCount (s : LoaderState) : Nat := s.reserved + inFlight s

/-- CULoader.h line 665: `complete()` returns `waitCount() == 0`. -/
def complete (s : LoaderState) : Bool := waitCount s == 0

/-- CULoader.h lines 680-683: `progress()` computes
`size = loadCount() + waitCount()` and returns `0` when `size == 0` and
`loadCount() / size` otherwise. The C++ `float` division is modelled by exact
division in `ℚ`. -/
def progress (s : LoaderState) : ℚ :=
  let size := loadCount s + waitCount s
  if size = 0 then 0 else (loadCount s : ℚ) / (size : ℚ)

/-- CULoader.h line 609: `reserve(amount)` executes `_reserved = amount;`
(an assignment, not an addition). -/
def reserve (s : LoaderState) (amount : Nat) : LoaderState :=
  { s with reserved := amount }

/-- CULoader.h lines 783-786: `enqueue(key)` inserts the key into `_queue`
and then runs `if (_reserved) { _reserved--; }`. -/
def enqueue (s : LoaderState) (key : String) : LoaderState :=
  { s with queue := insert key s.queue,
           reserved := if s.reserved ≠ 0 then s.reserved - 1 else s.reserved }

/-- CULoader.h lines 795-797: `unloadAll()` runs `_assets.clear();`. -/
def unloadAll (s : LoaderState) : LoaderState :=
  { s with assets := ∅ }

/-- CULoader.h lines 827-834: `purgeKey(key)` erases the key from `_assets`
and returns true when it was present; `unload(key)` (line 536) simply calls
`purgeKey(key)`. -/
def purgeKey (s : LoaderState) (key : String) : Bool × LoaderState :=
  if key ∈ s.assets then (true, { s with assets := s.assets.erase key })
  else (false, s)

/-- CULoader.h lines 847-849: `verify(key)` (and hence `contains(key)`,
line 588) tests membership in `_assets`. -/
def verify (s : LoaderState) (key : String) : Bool := key ∈ s.assets

/-- CUFontLoader.cpp lines 206-220: `materialize(key, font, callback)`.
`ok` abstracts `font != nullptr && font->storeAtlases()`. On success the key
is stored into `_assets`; in every case the callback (if any) is invoked with
`(key, success)` and then `_queue.erase(key)` runs unconditionally. The
returned boolean is the `success` value passed to the callback. -/
def materialize (s : LoaderState) (key : String) (ok : Bool) : Bool × LoaderState :=
  let s1 := if ok then { s with assets := insert key s.assets } else s
  (ok, { s1 with queue := s1.queue.erase key })

/-- CUFontLoader.cpp lines 296-319: `read(json, callback, async)` on the
synchronous path. If the key is already loaded or already in flight it
returns false at once without touching any state; otherwise it enqueues the
key, preloads the font (success abstracted by `ok`) and materializes it. -/
def fontRead (s : LoaderState) (key : String) (ok : Bool) : Bool × LoaderState :=
  if key ∈ s.assets ∨ key ∈ s.queue then (false, s)
  else
    let s1 := enqueue s key
    materialize s1 key ok

/-! ### The AssetManager directory scheduler (CUAssetManager.cpp)

The manager keeps three tables, always in sync by construction: `_jsonKeys`
(JSON key to type hash), `_priority` (JSON key to priority rank) and
`_handlers` (type hash to loader). Since the hash is a bijective indirection
between the JSON key and its unique loader, the three tables are embedded as
one association list from JSON key to priority rank and loader state. -/

/-- A top-level category of a JSON asset directory: its JSON key and the keys
of its per-asset entries. The loader-specific payload of each entry is
irrelevant to scheduling and is abstracted into the success oracle. -/
structure Category where
  key : String
  assets : List String
deriving DecidableEq

/-- Looks up the loader (rank and state) registered for a JSON key:
`_jsonKeys.find` followed by `_priority.find` / `_handlers[hash]`. -/
def findLoader : List (String × Nat × LoaderState) → String → Option (Nat × LoaderState)
  | [], _ => none
  | (k, r, st) :: rest, key => if k = key then some (r, st) else findLoader rest key

/-- Replaces the state of the loader registered for a JSON key; the key and
rank tables are never modified by a directory load. -/
def setLoader : List (String × Nat × LoaderState) → String → LoaderState → List (String × Nat × LoaderState)
  | [], _, _ => []
  | (k, r, st) :: rest, key, st2 =>
    if k = key then (k, r, st2) :: rest else (k, r, st) :: setLoader rest key st2

/-- Priority rank registered for a JSON key, when any. -/
def rankOf (ls : List (String × Nat × LoaderState)) (k : String) : Option Nat :=
  (findLoader ls k).map Prod.fst

/-- CUAssetManager.cpp lines 111-130: the synchronous `readCategory` calls
`loader->load(child)` on every per-asset entry of the category in order,
accumulating `success = loader->load(child) && success`. Each `load` is the
synchronous `read` (embedded here by `fontRead`); `ok` gives the parse
outcome of each entry. -/
def readCategory (ok : String → Bool) (st : LoaderState) (assets : List String) :
    Bool × LoaderState :=
  assets.foldl (fun acc a =>
    let r := fontRead acc.2 a (ok a)
    (r.1 && acc.1, r.2)) (true, st)

/-- Observable scheduler events: dispatching a category to its loader at a
rank, or inserting the `sync()` barrier task (CUAssetManager.cpp lines
226-242), which polls every loader until all `inFlight()` counts are zero. -/
inductive Event where
  | dispatch (catKey : String) (rank : Nat)
  | barrier
deriving DecidableEq

/-- State threaded through a directory load (CUAssetManager.cpp lines
278-328 and 413-466): the loader table, the accumulated success flag, and
the `entries`, `err`, `curr`, `next` counters. `entries` is a C++ `size_t`
and `err`/`curr`/`next` are `Uint32`; all are modelled on `ℕ` (no run of the
loop decrements `entries` below zero). -/
structure SchedState where
  loaders : List (String × Nat × LoaderState)
  success : Bool
  entries : Nat
  err : Nat
  curr : Nat
  next : Nat
deriving DecidableEq

/-- The `next` update of CUAssetManager.cpp lines 313-318 (and 446-451):
when a category's rank is above `curr`, `next` becomes that rank if `next`
is still parked at `curr`, or the smaller of the two otherwise. -/
def bumpNext (curr next rank : Nat) : Nat :=
  if next = curr then rank else if rank < next then rank else next

/-- One category of the inner `for` loop of the synchronous `loadDirectory`
(CUAssetManager.cpp lines 303-325): dispatch at rank `curr` (decrementing
`entries`), record a strictly greater rank in `next`, or count an unknown
key in `err` and force failure. -/
def sweepStep (ok : String → String → Bool) (c : Category) (st : SchedState) :
    SchedState × List Event :=
  match findLoader st.loaders c.key with
  | some (rank, ls) =>
    if rank = st.curr then
      let r := readCategory (ok c.key) ls c.assets
      ({ st with loaders := setLoader st.loaders c.key r.2,
                 success := r.1 && st.success,
                 entries := st.entries - 1 },
       [Event.dispatch c.key rank])
    else if st.curr < rank then
      ({ st with next := bumpNext st.curr st.next rank }, [])
    else (st, [])
  | none => ({ st with success := false, err := st.err + 1 }, [])

/-- One full sweep of the inner `for` loop over every category of the
directory, in directory order. -/
def sweepCats (ok : String → String → Bool) :
    List Category → SchedState → SchedState × List Event
  | [], st => (st, [])
  | c :: rest, st =>
    let r := sweepStep ok c st
    let r2 := sweepCats ok rest r.1
    (r2.1, r.2 ++ r2.2)

/-- The `while (entries > err)` loop of the synchronous `loadDirectory`
(CUAssetManager.cpp lines 302-327): sweep all categories, then `curr = next`.
`fuel` bounds the number of sweeps; any value large enough to reach the exit
condition yields the result of the C++ loop. -/
def loadLoop (ok : String → String → Bool) (dir : List Category) :
    Nat → SchedState → SchedState × List Event
  | 0, st => (st, [])
  | Nat.succ fuel, st =>
    if st.err < st.entries then
      let r := sweepCats ok dir st
      let r2 := loadLoop ok dir fuel { r.1 with curr := r.1.next }
      (r2.1, r.2 ++ r2.2)
    else (st, [])

/-- The pre-scan pass shared by `loadDirectory` and `loadDirectoryAsync`
(CUAssetManager.cpp lines 283-295 and 417-429): for every registered
category, count the entries not already contained and call `reserve` with
that count. -/
def prescan (dir : List Category) (ls : List (String × Nat × LoaderState)) :
    List (String × Nat × LoaderState) :=
  dir.foldl (fun acc c =>
    match findLoader acc c.key with
    | some (_, st) =>
      let amt := c.assets.countP (fun a => !(decide (a ∈ st.assets)))
      setLoader acc c.key (reserve st amt)
    | none => acc) ls

/-- CUAssetManager.cpp lines 278-329: the synchronous `loadDirectory(json)`,
returning the final scheduler state and the trace of dispatch events. -/
def loadDirectorySync (ok : String → String → Bool)
    (ls : List (String × Nat × LoaderState)) (dir : List Category) (fuel : Nat) :
    SchedState × List Event :=
  loadLoop ok dir fuel
    { loaders := prescan dir ls, success := true,
      entries := dir.length, err := 0, curr := 0, next := 0 }

/-- One category of the inner `for` loop of `loadDirectoryAsync`
(CUAssetManager.cpp lines 436-456). Dispatch calls the asynchronous
`readCategory`, which only queues per-asset worker tasks (the loader state
changes happen later inside those tasks, CUFontLoader.cpp lines 253-260), so
only `entries` changes here; an unknown key counts in `err` without touching
the success flag (the asynchronous variant keeps none). -/
def sweepStepAsync (c : Category) (st : SchedState) : SchedState × List Event :=
  match findLoader st.loaders c.key with
  | some (rank, _) =>
    if rank = st.curr then
      ({ st with entries := st.entries - 1 }, [Event.dispatch c.key rank])
    else if st.curr < rank then
      ({ st with next := bumpNext st.curr st.next rank }, [])
    else (st, [])
  | none => ({ st with err := st.err + 1 }, [])

/-- One full asynchronous sweep over every category in directory order. -/
def sweepCatsAsync : List Category → SchedState → SchedState × List Event
  | [], st => (st, [])
  | c :: rest, st =>
    let r := sweepStepAsync c st
    let r2 := sweepCatsAsync rest r.1
    (r2.1, r.2 ++ r2.2)

/-- The `while (entries > err)` loop of `loadDirectoryAsync`
(CUAssetManager.cpp lines 435-462): after each sweep, if `entries != err`
the scheduler sets `curr = next` and inserts a `sync()` barrier before the
next sweep. -/
def loadLoopAsync (dir : List Category) :
    Nat → SchedState → SchedState × List Event
  | 0, st => (st, [])
  | Nat.succ fuel, st =>
    if st.err < st.entries then
      let r := sweepCatsAsync dir st
      if r.1.entries ≠ r.1.err then
        let r2 := loadLoopAsync dir fuel { r.1 with curr := r.1.next }
        (r2.1, r.2 ++ Event.barrier :: r2.2)
      else (r.1, r.2)
    else (st, [])

/-- CUAssetManager.cpp lines 413-466: `loadDirectoryAsync(json, callback)`,
including the final `sync()` barrier after the whole directory has been
dispatched. -/
def loadDirectoryAsyncJson (ls : List (String × Nat × LoaderState))
    (dir : List Category) (fuel : Nat) : SchedState × List Event :=
  let r := loadLoopAsync dir fuel
    { loaders := prescan dir ls, success := true,
      entries := dir.length, err := 0, curr := 0, next := 0 }
  (r.1, r.2 ++ [Event.barrier])

/-- Ranks of the dispatch events of a trace, in order. -/
def evRanks (es : List Event) : List Nat :=
  es.filterMap (fun e => match e with
    | Event.dispatch _ r => some r
    | Event.barrier => none)

/-- Ranks strictly above `curr` among the categories of the directory that
have a registered loader. -/
def ranksAbove (ls : List (String × Nat × LoaderState)) (cs : List Category)
    (curr : Nat) : List Nat :=
  cs.filterMap (fun c => match rankOf ls c.key with
    | some r => if curr < r then some r else none
    | none => none)

/-- Two adjacent trace events are either separated by a barrier or are
dispatches at one and the same rank. -/
def dispatchAdj : Event → Event → Prop := fun a b =>
  match a, b with
  | Event.dispatch _ r1, Event.dispatch _ r2 => r1 = r2
  | _, _ => True

/-! ### The asynchronous whole-directory entry point and progress sums -/

/-- Outcome of a call to the path version of `loadDirectoryAsync`
(CUAssetManager.cpp lines 507-521): the callback invocations made directly
by the call, whether a worker task was queued, whether that task dereferences
a null pointer (the null `reader` at line 517, or the null parsed `json`
inside `loadDirectoryAsync(json, callback)` at line 414), the `_preload`
flag when the call returns, and whether any queued work will ever reset
`_preload` to false (line 519). -/
structure PathCall where
  calls : List (String × Bool)
  taskQueued : Bool
  taskCrashes : Bool
  preloadAfterReturn : Bool
  preloadCleared : Bool
deriving DecidableEq

/-- CUAssetManager.cpp lines 507-521: `loadDirectoryAsync(directory,
callback)`. Modelled from the spec for the JSON reader, which is not part of
the sources: `JsonReader::allocWithAsset` returns null exactly when the file
cannot be opened (`opens = false`), and `readJson` returns a null tree
exactly when the file cannot be parsed (`parses = false`). The method sets
`_preload = true`, returns early (without clearing `_preload`) when the
reader is null and the callback is not, and otherwise queues a worker task
that calls `reader->readJson()` — a null-pointer dereference when the reader
is null — and then `loadDirectoryAsync(json, callback)`, which dereferences
the null `json` when parsing failed; only a task that survives both reaches
`_preload = false`. -/
def loadDirectoryAsyncPath (opens parses hasCallback : Bool) : PathCall :=
  if !opens && hasCallback then
    { calls := [("", false)], taskQueued := false, taskCrashes := false,
      preloadAfterReturn := true, preloadCleared := false }
  else
    { calls := [], taskQueued := true, taskCrashes := !opens || !parses,
      preloadAfterReturn := true, preloadCleared := opens && parses }

/-- CUAssetManager.cpp lines 583-590: `AssetManager::loadCount()` sums
`loadCount()` over all attached loaders. -/
def managerLoadCount (ls : List (String × Nat × LoaderState)) : Nat :=
  (ls.map (fun p => loadCount p.2.2)).sum

/-- CUAssetManager.cpp lines 604-610: `AssetManager::waitCount()` sums
`waitCount()` over all attached loaders and returns `result + 1` while
`_preload` is set. -/
def managerWaitCount (preload : Bool) (ls : List (String × Nat × LoaderState)) : Nat :=
  let result := (ls.map (fun p => waitCount p.2.2)).sum
  if preload then result + 1 else result

/-- The loader bookkeeping invariant of the spec: `waitCount` is the reserved
counter plus the size of the in-flight set, `complete` holds exactly when
`waitCount` is zero, and `progress` is `loadCount / (loadCount + waitCount)`,
taken to be `0` when both counts are zero. -/
def loaderInv (s : LoaderState) : Prop :=
  waitCount s = s.reserved + inFlight s ∧
  (complete s = true ↔ waitCount s = 0) ∧
  progress s = if loadCount s = 0 ∧ waitCount s = 0 then 0
               else (loadCount s : ℚ) / ((loadCount s : ℚ) + (waitCount s : ℚ))

/-- A directory with two registered categories at ranks 2 and 3 and one
unknown-key category. -/
def overDir : List Category := [⟨"a", ["x"]⟩, ⟨"b", ["y"]⟩, ⟨"c", ["z"]⟩]

/-- The loaders attached for `overDir`: `a` at rank 2 and `b` at rank 3,
both initially empty; no loader responds to `c`. -/
def overLoaders : List (String × Nat × LoaderState) :=
  [("a", 2, ⟨∅, ∅, 0⟩), ("b", 3, ⟨∅, ∅, 0⟩)]

/-- A concrete scheduler state at the top of the priority loop for
`overDir`: `curr = next = 0`, no errors yet. -/
def sweepStart : SchedState :=
  { loaders := overLoaders, success := true, entries := 3, err := 0,
    curr := 0, next := 0 }

/-! ### Loader-level claims -/

/-- The invariant holds of every reachable loader state. -/
theorem loaderInv_all (s : LoaderState) : loaderInv s := by
  refine ⟨rfl, ?_, ?_⟩
  · simp [complete]
  · simp only [progress]
    by_cases h : loadCount s + waitCount s = 0
    · rw [if_pos h, if_pos (by omega)]
    · rw [if_neg h, if_neg (by omega)]
      push_cast
      ring

/-- C1: for every loader, at every point before and after each enqueue or
materialize operation, `waitCount()` equals the reserved counter plus the
size of the in-flight set, `complete()` returns true iff `waitCount() == 0`,
and `progress()` returns `loadCount() / (loadCount() + waitCount())`,
defined as `0` when both counts are `0`. -/
theorem loader_counts_invariant (s : LoaderState) (key : String) (ok : Bool) :
    loaderInv s ∧ loaderInv (enqueue s key) ∧ loaderInv (materialize s key ok).2 :=
  ⟨loaderInv_all s, loaderInv_all (enqueue s key), loaderInv_all (materialize s key ok).2⟩

/-- C3, counterexample: on a loader whose reserved counter is 1, `reserve(2)`
leaves the counter at 2 (the code assigns), not at 1 + 2 (the claimed
addition), and `waitCount()` grows by 1, not by the amount 2. -/
theorem reserve_additive_counterexample :
    (reserve ⟨∅, ∅, 1⟩ 2).reserved = 2 ∧
    ¬ ((reserve ⟨∅, ∅, 1⟩ 2).reserved = 1 + 2) ∧
    waitCount (reserve ⟨∅, ∅, 1⟩ 2) = 2 ∧
    ¬ (waitCount (reserve ⟨∅, ∅, 1⟩ 2) = waitCount ⟨∅, ∅, 1⟩ + 2) := by
  decide

/-- C3, amended: `reserve(amount)` sets the reserved-but-not-yet-queued
counter to `amount`, replacing any prior value, so `waitCount()` becomes
`amount + inFlight()`; the asset table and the in-flight set are untouched. -/
theorem reserve_sets_amended (s : LoaderState) (amount : Nat) :
    (reserve s amount).reserved = amount ∧
    waitCount (reserve s amount) = amount + inFlight s ∧
    (reserve s amount).assets = s.assets ∧
    (reserve s amount).queue = s.queue :=
  ⟨rfl, rfl, rfl, rfl⟩

/-- C4: `enqueue(key)` inserts the key into the pending set and decrements
the reserved counter by exactly 1 when it is nonzero, leaving it at 0
otherwise (it never underflows); after `reserve(5)` and three enqueues of
distinct keys on a fresh loader, `waitCount()` is 5. -/
theorem enqueue_reserved_decrement (s : LoaderState) (key k1 k2 k3 : String)
    (h12 : k1 ≠ k2) (h13 : k1 ≠ k3) (h23 : k2 ≠ k3) :
    key ∈ (enqueue s key).queue ∧
    (enqueue s key).queue = insert key s.queue ∧
    (s.reserved ≠ 0 → (enqueue s key).reserved + 1 = s.reserved) ∧
    (s.reserved = 0 → (enqueue s key).reserved = 0) ∧
    waitCount (enqueue (enqueue (enqueue (reserve ⟨∅, ∅, 0⟩ 5) k1) k2) k3) = 5 := by
  have m2 : k2 ∉ ({k1} : Finset String) := by
    simp only [Finset.mem_singleton]
    exact Ne.symm h12
  have m3 : k3 ∉ insert k2 ({k1} : Finset String) := by
    simp only [Finset.mem_insert, Finset.mem_singleton]
    push_neg
    exact ⟨Ne.symm h23, Ne.symm h13⟩
  refine ⟨Finset.mem_insert_self key s.queue, rfl, ?_, ?_, ?_⟩
  · intro h
    simp only [enqueue, if_pos h]
    omega
  · intro h
    simp [enqueue, h]
  · simp [waitCount, inFlight, enqueue, reserve,
          Finset.card_insert_of_not_mem m3, Finset.card_insert_of_not_mem m2]

/-- C4 witness at concrete keys. -/
theorem enqueue_reserved_decrement_witness :
    "a" ∈ (enqueue ⟨∅, ∅, 1⟩ "a").queue ∧
    (enqueue ⟨∅, ∅, 1⟩ "a").queue = insert "a" (∅ : Finset String) ∧
    ((1 : Nat) ≠ 0 → (enqueue ⟨∅, ∅, 1⟩ "a").reserved + 1 = 1) ∧
    ((1 : Nat) = 0 → (enqueue ⟨∅, ∅, 1⟩ "a").reserved = 0) ∧
    waitCount (enqueue (enqueue (enqueue (reserve ⟨∅, ∅, 0⟩ 5) "a") "b") "c") = 5 :=
  enqueue_reserved_decrement ⟨∅, ∅, 1⟩ "a" "a" "b" "c"
    (by decide) (by decide) (by decide)

/-- C5: a `read` whose key is already loaded or already in flight returns
false immediately and leaves the loader state unchanged. -/
theorem read_duplicate_guard (s : LoaderState) (key : String) (ok : Bool)
    (h : key ∈ s.assets ∨ key ∈ s.queue) :
    fontRead s key ok = (false, s) := by
  simp [fontRead, h]

/-- C5 witness: rereading a loaded key fails without any state change. -/
theorem read_duplicate_guard_witness :
    fontRead ⟨{"k"}, ∅, 3⟩ "k" true = (false, ⟨{"k"}, ∅, 3⟩) :=
  read_duplicate_guard ⟨{"k"}, ∅, 3⟩ "k" true (Or.inl (by decide))

/-- C7: a read that fails leaves the key absent from the loaded-asset table,
and once the load attempt completes the key is removed from the in-flight
set whether the attempt succeeded or failed. -/
theorem read_failure_cleanup (s : LoaderState) (key : String) (ok : Bool)
    (h1 : key ∉ s.assets) (h2 : key ∉ s.queue) :
    (fontRead s key false).1 = false ∧
    key ∉ (fontRead s key false).2.assets ∧
    key ∉ (fontRead s key ok).2.queue := by
  have hg : ¬ (key ∈ s.assets ∨ key ∈ s.queue) := by tauto
  refine ⟨?_, ?_, ?_⟩
  · simp [fontRead, hg, h1, h2, materialize]
  · simp [fontRead, hg, h1, h2, materialize, enqueue]
  · cases ok <;> simp [fontRead, hg, h1, h2, materialize, enqueue, Finset.not_mem_erase]

/-- C7 witness at a fresh loader. -/
theorem read_failure_cleanup_witness :
    (fontRead ⟨∅, ∅, 0⟩ "k" false).1 = false ∧
    "k" ∉ (fontRead ⟨∅, ∅, 0⟩ "k" false).2.assets ∧
    "k" ∉ (fontRead ⟨∅, ∅, 0⟩ "k" true).2.queue :=
  read_failure_cleanup ⟨∅, ∅, 0⟩ "k" true (by decide) (by decide)

/-- C10: `purgeKey`/`unload` and `unloadAll` touch only the loaded-asset
table: the in-flight set and reserved counter are unchanged, `waitCount()`
is unaffected, and unloading a key that is in flight but not yet
materialized returns false. -/
theorem unload_preserves_pending (s : LoaderState) (key : String) :
    (purgeKey s key).2.queue = s.queue ∧
    (purgeKey s key).2.reserved = s.reserved ∧
    (unloadAll s).queue = s.queue ∧
    (unloadAll s).reserved = s.reserved ∧
    waitCount (purgeKey s key).2 = waitCount s ∧
    waitCount (unloadAll s) = waitCount s ∧
    (key ∈ s.queue → key ∉ s.assets → (purgeKey s key).1 = false) := by
  have hq : (purgeKey s key).2.queue = s.queue := by
    unfold purgeKey
    split <;> rfl
  have hr : (purgeKey s key).2.reserved = s.reserved := by
    unfold purgeKey
    split <;> rfl
  refine ⟨hq, hr, rfl, rfl, ?_, rfl, ?_⟩
  · unfold waitCount inFlight
    rw [hq, hr]
  · intro _ hna
    simp [purgeKey, hna]

/-- C10 witness: unloading an in-flight key fails and `waitCount` stands. -/
theorem unload_preserves_pending_witness :
    (purgeKey ⟨∅, {"k"}, 2⟩ "k").1 = false ∧
    waitCount (purgeKey ⟨∅, {"k"}, 2⟩ "k").2 = waitCount ⟨∅, {"k"}, 2⟩ :=
  ⟨(unload_preserves_pending ⟨∅, {"k"}, 2⟩ "k").2.2.2.2.2.2 (by decide) (by decide),
   (unload_preserves_pending ⟨∅, {"k"}, 2⟩ "k").2.2.2.2.1⟩

/-! ### Scheduler trace lemmas

The sweep functions never change `curr`, never decrease `next` below `curr`,
emit dispatch events only at rank `curr`, and compute in `next` the least
registered rank strictly above `curr`. These facts drive the priority-order
theorem. -/

theorem mem_of_getLastQ {α : Type} {l : List α} {x : α} (h : x ∈ l.getLast?) :
    x ∈ l := by
  obtain ⟨hne, rfl⟩ := List.mem_getLast?_eq_getLast h
  exact List.getLast_mem hne

theorem mem_of_headQ {α : Type} {l : List α} {x : α} (h : x ∈ l.head?) :
    x ∈ l := by
  cases l with
  | nil => simp at h
  | cons a rest =>
    simp only [List.head?_cons, Option.mem_def, Option.some.injEq] at h
    simp [h]

theorem rankOf_setLoader (key : String) (st2 : LoaderState) (k : String) :
    ∀ ls : List (String × Nat × LoaderState),
      rankOf (setLoader ls key st2) k = rankOf ls k := by
  intro ls
  induction ls with
  | nil => rfl
  | cons p rest ih =>
    obtain ⟨k1, r1, s1⟩ := p
    simp only [setLoader]
    by_cases h : k1 = key
    · rw [if_pos h]
      by_cases h2 : k1 = k
      · simp only [rankOf, findLoader, if_pos h2, Option.map_some]
        rfl
      · simp only [rankOf, findLoader, if_neg h2]
    · rw [if_neg h]
      by_cases h2 : k1 = k
      · simp only [rankOf, findLoader, if_pos h2]
      · simp only [rankOf, findLoader, if_neg h2]
        exact ih

theorem sweepStep_curr (ok : String → String → Bool) (c : Category)
    (st : SchedState) : ((sweepStep ok c st).1).curr = st.curr := by
  unfold sweepStep
  cases hf : findLoader st.loaders c.key with
  | none => rfl
  | some p =>
    obtain ⟨rank, ls⟩ := p
    by_cases h1 : rank = st.curr
    · simp [h1]
    · by_cases h2 : st.curr < rank <;> simp [h1, h2]

theorem sweepStep_rankOf (ok : String → String → Bool) (c : Category)
    (st : SchedState) (k : String) :
    rankOf ((sweepStep ok c st).1).loaders k = rankOf st.loaders k := by
  unfold sweepStep
  cases hf : findLoader st.loaders c.key with
  | none => rfl
  | some p =>
    obtain ⟨rank, ls⟩ := p
    by_cases h1 : rank = st.curr
    · simp [h1, rankOf_setLoader]
    · by_cases h2 : st.curr < rank <;> simp [h1, h2]

theorem sweepStep_next_ge (ok : String → String → Bool) (c : Category)
    (st : SchedState) (h : st.curr ≤ st.next) :
    st.curr ≤ ((sweepStep ok c st).1).next := by
  unfold sweepStep
  cases hf : findLoader st.loaders c.key with
  | none => exact h
  | some p =>
    obtain ⟨rank, ls⟩ := p
    by_cases h1 : rank = st.curr
    · simpa [h1] using h
    · by_cases h2 : st.curr < rank
      · simp only [h1, h2, if_neg, if_pos, ite_true, ite_false, if_false]
        unfold bumpNext
        split_ifs <;> omega
      · simpa [h1, h2] using h

theorem sweepStep_events (ok : String → String → Bool) (c : Category)
    (st : SchedState) :
    ∀ e ∈ (sweepStep ok c st).2, e = Event.dispatch c.key st.curr := by
  unfold sweepStep
  cases hf : findLoader st.loaders c.key with
  | none => simp
  | some p =>
    obtain ⟨rank, ls⟩ := p
    by_cases h1 : rank = st.curr
    · simp [h1]
    · by_cases h2 : st.curr < rank <;> simp [h1, h2]

theorem sweepStepAsync_curr (c : Category) (st : SchedState) :
    ((sweepStepAsync c st).1).curr = st.curr := by
  unfold sweepStepAsync
  cases hf : findLoader st.loaders c.key with
  | none => rfl
  | some p =>
    obtain ⟨rank, ls⟩ := p
    by_cases h1 : rank = st.curr
    · simp [h1]
    · by_cases h2 : st.curr < rank <;> simp [h1, h2]

theorem sweepStepAsync_loaders (c : Category) (st : SchedState) :
    ((sweepStepAsync c st).1).loaders = st.loaders := by
  unfold sweepStepAsync
  cases hf : findLoader st.loaders c.key with
  | none => rfl
  | some p =>
    obtain ⟨rank, ls⟩ := p
    by_cases h1 : rank = st.curr
    · simp [h1]
    · by_cases h2 : st.curr < rank <;> simp [h1, h2]

theorem sweepStepAsync_next_ge (c : Category) (st : SchedState)
    (h : st.curr ≤ st.next) : st.curr ≤ ((sweepStepAsync c st).1).next := by
  unfold sweepStepAsync
  cases hf : findLoader st.loaders c.key with
  | none => exact h
  | some p =>
    obtain ⟨rank, ls⟩ := p
    by_cases h1 : rank = st.curr
    · simpa [h1] using h
    · by_cases h2 : st.curr < rank
      · simp only [h1, h2, if_neg, if_pos, ite_true, ite_false, if_false]
        unfold bumpNext
        split_ifs <;> omega
      · simpa [h1, h2] using h

theorem sweepStepAsync_events (c : Category) (st : SchedState) :
    ∀ e ∈ (sweepStepAsync c st).2, e = Event.dispatch c.key st.curr := by
  unfold sweepStepAsync
  cases hf : findLoader st.loaders c.key with
  | none => simp
  | some p =>
    obtain ⟨rank, ls⟩ := p
    by_cases h1 : rank = st.curr
    · simp [h1]
    · by_cases h2 : st.curr < rank <;> simp [h1, h2]

theorem sweepCats_curr (ok : String → String → Bool) :
    ∀ (cs : List Category) (st : SchedState),
      ((sweepCats ok cs st).1).curr = st.curr := by
  intro cs
  induction cs with
  | nil => intro st; rfl
  | cons c rest ih =>
    intro st
    simp only [sweepCats]
    rw [ih, sweepStep_curr]

theorem sweepCats_next_ge (ok : String → String → Bool) :
    ∀ (cs : List Category) (st : SchedState), st.curr ≤ st.next →
      st.curr ≤ ((sweepCats ok cs st).1).next := by
  intro cs
  induction cs with
  | nil => intro st h; exact h
  | cons c rest ih =>
    intro st h
    simp only [sweepCats]
    have h1 := sweepStep_next_ge ok c st h
    have h2 := sweepStep_curr ok c st
    have := ih (sweepStep ok c st).1 (by rw [h2]; exact h1)
    rw [h2] at this
    exact this

theorem sweepCats_events (ok : String → String → Bool) :
    ∀ (cs : List Category) (st : SchedState),
      ∀ e ∈ (sweepCats ok cs st).2, ∃ k, e = Event.dispatch k st.curr := by
  intro cs
  induction cs with
  | nil => intro st e he; simp [sweepCats] at he
  | cons c rest ih =>
    intro st e he
    simp only [sweepCats, List.mem_append] at he
    rcases he with he | he
    · exact ⟨c.key, sweepStep_events ok c st e he⟩
    · have := ih (sweepStep ok c st).1 e he
      rwa [sweepStep_curr] at this

theorem sweepCatsAsync_curr :
    ∀ (cs : List Category) (st : SchedState),
      ((sweepCatsAsync cs st).1).curr = st.curr := by
  intro cs
  induction cs with
  | nil => intro st; rfl
  | cons c rest ih =>
    intro st
    simp only [sweepCatsAsync]
    rw [ih, sweepStepAsync_curr]

theorem sweepCatsAsync_next_ge :
    ∀ (cs : List Category) (st : SchedState), st.curr ≤ st.next →
      st.curr ≤ ((sweepCatsAsync cs st).1).next := by
  intro cs
  induction cs with
  | nil => intro st h; exact h
  | cons c rest ih =>
    intro st h
    simp only [sweepCatsAsync]
    have h1 := sweepStepAsync_next_ge c st h
    have h2 := sweepStepAsync_curr c st
    have := ih (sweepStepAsync c st).1 (by rw [h2]; exact h1)
    rw [h2] at this
    exact this

theorem sweepCatsAsync_events :
    ∀ (cs : List Category) (st : SchedState),
      ∀ e ∈ (sweepCatsAsync cs st).2, ∃ k, e = Event.dispatch k st.curr := by
  intro cs
  induction cs with
  | nil => intro st e he; simp [sweepCatsAsync] at he
  | cons c rest ih =>
    intro st e he
    simp only [sweepCatsAsync, List.mem_append] at he
    rcases he with he | he
    · exact ⟨c.key, sweepStepAsync_events c st e he⟩
    · have := ih (sweepStepAsync c st).1 e he
      rwa [sweepStepAsync_curr] at this

theorem evRanks_append (l1 l2 : List Event) :
    evRanks (l1 ++ l2) = evRanks l1 ++ evRanks l2 := by
  simp [evRanks, List.filterMap_append]

theorem evRanks_all {l : List Event} {c : Nat}
    (h : ∀ e ∈ l, ∃ k, e = Event.dispatch k c) : ∀ x ∈ evRanks l, x = c := by
  intro x hx
  simp only [evRanks, List.mem_filterMap] at hx
  obtain ⟨e, he, hfe⟩ := hx
  obtain ⟨k, rfl⟩ := h e he
  simpa using hfe.symm

theorem chain_le_of_const {l : List Nat} {c : Nat} (h : ∀ x ∈ l, x = c) :
    List.Chain' (· ≤ ·) l := by
  induction l with
  | nil => simp
  | cons a rest ih =>
    cases rest with
    | nil => simp
    | cons b rest2 =>
      rw [List.chain'_cons]
      refine ⟨?_, ih ?_⟩
      · rw [h a (by simp), h b (by simp)]
      · intro x hx
        exact h x (List.mem_cons_of_mem _ hx)

theorem chain_adj_of_const {l : List Event} {c : Nat}
    (h : ∀ e ∈ l, ∃ k, e = Event.dispatch k c) : List.Chain' dispatchAdj l := by
  induction l with
  | nil => simp
  | cons a rest ih =>
    cases rest with
    | nil => simp
    | cons b rest2 =>
      rw [List.chain'_cons]
      obtain ⟨k1, ha⟩ := h a (by simp)
      obtain ⟨k2, hb⟩ := h b (by simp)
      refine ⟨?_, ih ?_⟩
      · rw [ha, hb]
        exact rfl
      · intro x hx
        exact h x (List.mem_cons_of_mem _ hx)

theorem dispatchAdj_barrier_left (b : Event) : dispatchAdj Event.barrier b := by
  cases b <;> trivial

theorem dispatchAdj_barrier_right (a : Event) : dispatchAdj a Event.barrier := by
  cases a <;> trivial

theorem loadLoop_sorted (ok : String → String → Bool) (dir : List Category) :
    ∀ (fuel : Nat) (st : SchedState), st.curr ≤ st.next →
      List.Chain' (· ≤ ·) (evRanks (loadLoop ok dir fuel st).2) ∧
      ∀ r ∈ evRanks (loadLoop ok dir fuel st).2, st.curr ≤ r := by
  intro fuel
  induction fuel with
  | zero =>
    intro st h
    constructor
    · simp [loadLoop, evRanks]
    · intro r hr
      simp [loadLoop, evRanks] at hr
  | succ f ih =>
    intro st h
    by_cases hc : st.err < st.entries
    · simp only [loadLoop, if_pos hc]
      have hev := sweepCats_events ok dir st
      have hnext : st.curr ≤ (sweepCats ok dir st).1.next :=
        sweepCats_next_ge ok dir st h
      have hih := ih { (sweepCats ok dir st).1 with curr := (sweepCats ok dir st).1.next }
        (le_refl _)
      constructor
      · rw [evRanks_append]
        refine List.Chain'.append (chain_le_of_const (evRanks_all hev)) hih.1 ?_
        intro x hx y hy
        have hx2 := evRanks_all hev x (mem_of_getLastQ hx)
        have hy2 := hih.2 y (mem_of_headQ hy)
        rw [hx2]
        exact le_trans hnext hy2
      · intro r hr
        rw [evRanks_append, List.mem_append] at hr
        rcases hr with hr | hr
        · rw [evRanks_all hev r hr]
        · exact le_trans hnext (hih.2 r hr)
    · simp only [loadLoop, if_neg hc]
      constructor
      · simp [evRanks]
      · intro r hr
        simp [evRanks] at hr

theorem loadLoopAsync_sorted (dir : List Category) :
    ∀ (fuel : Nat) (st : SchedState), st.curr ≤ st.next →
      List.Chain' (· ≤ ·) (evRanks (loadLoopAsync dir fuel st).2) ∧
      ∀ r ∈ evRanks (loadLoopAsync dir fuel st).2, st.curr ≤ r := by
  intro fuel
  induction fuel with
  | zero =>
    intro st h
    constructor
    · simp [loadLoopAsync, evRanks]
    · intro r hr
      simp [loadLoopAsync, evRanks] at hr
  | succ f ih =>
    intro st h
    by_cases hc : st.err < st.entries
    · simp only [loadLoopAsync, if_pos hc]
      have hev := sweepCatsAsync_events dir st
      have hnext : st.curr ≤ (sweepCatsAsync dir st).1.next :=
        sweepCatsAsync_next_ge dir st h
      by_cases hb : (sweepCatsAsync dir st).1.entries ≠ (sweepCatsAsync dir st).1.err
      · rw [if_pos hb]
        have hih := ih
          { (sweepCatsAsync dir st).1 with curr := (sweepCatsAsync dir st).1.next }
          (le_refl _)
        constructor
        · rw [evRanks_append]
          have hbar : evRanks (Event.barrier :: (loadLoopAsync dir f
              { (sweepCatsAsync dir st).1 with
                curr := (sweepCatsAsync dir st).1.next }).2) =
              evRanks (loadLoopAsync dir f
              { (sweepCatsAsync dir st).1 with
                curr := (sweepCatsAsync dir st).1.next }).2 := by
            simp [evRanks]
          rw [hbar]
          refine List.Chain'.append (chain_le_of_const (evRanks_all hev)) hih.1 ?_
          intro x hx y hy
          have hx2 := evRanks_all hev x (mem_of_getLastQ hx)
          have hy2 := hih.2 y (mem_of_headQ hy)
          rw [hx2]
          exact le_trans hnext hy2
        · intro r hr
          rw [evRanks_append, List.mem_append] at hr
          rcases hr with hr | hr
          · rw [evRanks_all hev r hr]
          · have : r ∈ evRanks (loadLoopAsync dir f
                { (sweepCatsAsync dir st).1 with
                  curr := (sweepCatsAsync dir st).1.next }).2 := by
              simpa [evRanks] using hr
            exact le_trans hnext (hih.2 r this)
      · rw [if_neg hb]
        constructor
        · exact chain_le_of_const (evRanks_all hev)
        · intro r hr
          rw [evRanks_all hev r hr]
    · simp only [loadLoopAsync, if_neg hc]
      constructor
      · simp [evRanks]
      · intro r hr
        simp [evRanks] at hr

theorem loadLoopAsync_adj (dir : List Category) :
    ∀ (fuel : Nat) (st : SchedState),
      List.Chain' dispatchAdj (loadLoopAsync dir fuel st).2 := by
  intro fuel
  induction fuel with
  | zero =>
    intro st
    simp [loadLoopAsync]
  | succ f ih =>
    intro st
    by_cases hc : st.err < st.entries
    · simp only [loadLoopAsync, if_pos hc]
      have hev := sweepCatsAsync_events dir st
      by_cases hb : (sweepCatsAsync dir st).1.entries ≠ (sweepCatsAsync dir st).1.err
      · rw [if_pos hb]
        refine List.Chain'.append (chain_adj_of_const hev) ?_ ?_
        · rw [List.chain'_cons']
          exact ⟨fun y _ => dispatchAdj_barrier_left y, ih _⟩
        · intro x hx y hy
          have : Event.barrier = y := by simpa using hy
          rw [← this]
          exact dispatchAdj_barrier_right x
      · rw [if_neg hb]
        exact chain_adj_of_const hev
    · simp only [loadLoopAsync, if_neg hc]
      simp

theorem ranksAbove_congr {ls1 ls2 : List (String × Nat × LoaderState)}
    (h : ∀ k, rankOf ls1 k = rankOf ls2 k) :
    ∀ (cs : List Category) (curr : Nat),
      ranksAbove ls1 cs curr = ranksAbove ls2 cs curr := by
  intro cs curr
  induction cs with
  | nil => rfl
  | cons c rest ih =>
    have ih2 := ih
    simp only [ranksAbove] at ih2 ⊢
    simp only [List.filterMap_cons]
    rw [h c.key, ih2]

theorem sweepCats_next_min_gt (ok : String → String → Bool) :
    ∀ (cs : List Category) (st : SchedState), st.curr < st.next →
      ((sweepCats ok cs st).1.next = st.next ∨
        (sweepCats ok cs st).1.next ∈ ranksAbove st.loaders cs st.curr) ∧
      (sweepCats ok cs st).1.next ≤ st.next ∧
      ∀ r ∈ ranksAbove st.loaders cs st.curr, (sweepCats ok cs st).1.next ≤ r := by
  intro cs
  induction cs with
  | nil =>
    intro st h
    refine ⟨Or.inl rfl, le_refl _, ?_⟩
    intro r hr
    simp [ranksAbove] at hr
  | cons c rest ih =>
    intro st h
    simp only [sweepCats]
    cases hf : findLoader st.loaders c.key with
    | none =>
      have hro : rankOf st.loaders c.key = none := by simp [rankOf, hf]
      have hra : ranksAbove st.loaders (c :: rest) st.curr
          = ranksAbove st.loaders rest st.curr := by
        simp only [ranksAbove, List.filterMap_cons, hro]
      simp only [sweepStep, hf]
      rw [hra]
      exact ih { st with success := false, err := st.err + 1 } h
    | some p =>
      obtain ⟨rank, ls⟩ := p
      have hro : rankOf st.loaders c.key = some rank := by simp [rankOf, hf]
      by_cases h1 : rank = st.curr
      · have hra : ranksAbove st.loaders (c :: rest) st.curr
            = ranksAbove st.loaders rest st.curr := by
          simp only [ranksAbove, List.filterMap_cons, hro, h1]
          simp
        have hcg := ranksAbove_congr
          (fun k => rankOf_setLoader c.key (readCategory (ok c.key) ls c.assets).2 k
            st.loaders) rest st.curr
        simp only [sweepStep, hf]
        rw [if_pos h1, hra, ← hcg]
        exact ih { st with
          loaders := setLoader st.loaders c.key (readCategory (ok c.key) ls c.assets).2,
          success := (readCategory (ok c.key) ls c.assets).1 && st.success,
          entries := st.entries - 1 } h
      · by_cases h2 : st.curr < rank
        · have hne : ¬ (st.next = st.curr) := by omega
          have hra : ranksAbove st.loaders (c :: rest) st.curr
              = rank :: ranksAbove st.loaders rest st.curr := by
            simp only [ranksAbove, List.filterMap_cons, hro]
            simp [h2]
          simp only [sweepStep, hf]
          rw [if_neg h1, if_pos h2]
          rw [show bumpNext st.curr st.next rank
              = if rank < st.next then rank else st.next from by
            unfold bumpNext
            rw [if_neg hne]]
          by_cases h3 : rank < st.next
          · rw [if_pos h3, hra]
            have hih := ih { st with next := rank } h2
            refine ⟨?_, ?_, ?_⟩
            · rcases hih.1 with hh | hh
              · exact Or.inr (by rw [hh]; exact List.mem_cons_self _ _)
              · exact Or.inr (List.mem_cons_of_mem _ hh)
            · exact le_trans hih.2.1 (le_of_lt h3)
            · intro r hr
              rcases List.mem_cons.mp hr with rfl | hr
              · exact hih.2.1
              · exact hih.2.2 r hr
          · rw [if_neg h3, hra]
            have hge : st.next ≤ rank := le_of_not_lt h3
            have hih := ih { st with next := st.next } h
            refine ⟨?_, ?_, ?_⟩
            · rcases hih.1 with hh | hh
              · exact Or.inl hh
              · exact Or.inr (List.mem_cons_of_mem _ hh)
            · exact hih.2.1
            · intro r hr
              rcases List.mem_cons.mp hr with rfl | hr
              · exact le_trans hih.2.1 hge
              · exact hih.2.2 r hr
        · have hra : ranksAbove st.loaders (c :: rest) st.curr
              = ranksAbove st.loaders rest st.curr := by
            simp only [ranksAbove, List.filterMap_cons, hro]
            simp [h2]
          simp only [sweepStep, hf]
          rw [if_neg h1, if_neg h2, hra]
          exact ih st h

theorem sweepCats_next_min_eq (ok : String → String → Bool) :
    ∀ (cs : List Category) (st : SchedState), st.next = st.curr →
      (ranksAbove st.loaders cs st.curr = [] ∧ (sweepCats ok cs st).1.next = st.curr) ∨
      ((sweepCats ok cs st).1.next ∈ ranksAbove st.loaders cs st.curr ∧
       ∀ r ∈ ranksAbove st.loaders cs st.curr, (sweepCats ok cs st).1.next ≤ r) := by
  intro cs
  induction cs with
  | nil =>
    intro st h
    exact Or.inl ⟨rfl, h⟩
  | cons c rest ih =>
    intro st h
    simp only [sweepCats]
    cases hf : findLoader st.loaders c.key with
    | none =>
      have hro : rankOf st.loaders c.key = none := by simp [rankOf, hf]
      have hra : ranksAbove st.loaders (c :: rest) st.curr
          = ranksAbove st.loaders rest st.curr := by
        simp only [ranksAbove, List.filterMap_cons, hro]
      simp only [sweepStep, hf]
      rw [hra]
      exact ih { st with success := false, err := st.err + 1 } h
    | some p =>
      obtain ⟨rank, ls⟩ := p
      have hro : rankOf st.loaders c.key = some rank := by simp [rankOf, hf]
      by_cases h1 : rank = st.curr
      · have hra : ranksAbove st.loaders (c :: rest) st.curr
            = ranksAbove st.loaders rest st.curr := by
          simp only [ranksAbove, List.filterMap_cons, hro, h1]
          simp
        have hcg := ranksAbove_congr
          (fun k => rankOf_setLoader c.key (readCategory (ok c.key) ls c.assets).2 k
            st.loaders) rest st.curr
        simp only [sweepStep, hf]
        rw [if_pos h1, hra, ← hcg]
        exact ih { st with
          loaders := setLoader st.loaders c.key (readCategory (ok c.key) ls c.assets).2,
          success := (readCategory (ok c.key) ls c.assets).1 && st.success,
          entries := st.entries - 1 } h
      · by_cases h2 : st.curr < rank
        · have hra : ranksAbove st.loaders (c :: rest) st.curr
              = rank :: ranksAbove st.loaders rest st.curr := by
            simp only [ranksAbove, List.filterMap_cons, hro]
            simp [h2]
          simp only [sweepStep, hf]
          rw [if_neg h1, if_pos h2]
          rw [show bumpNext st.curr st.next rank = rank from by
            unfold bumpNext
            rw [if_pos h]]
          have hih := sweepCats_next_min_gt ok rest { st with next := rank } h2
          rw [hra]
          refine Or.inr ⟨?_, ?_⟩
          · rcases hih.1 with hh | hh
            · exact hh ▸ List.mem_cons_self _ _
            · exact List.mem_cons_of_mem _ hh
          · intro r hr
            rcases List.mem_cons.mp hr with rfl | hr
            · exact hih.2.1
            · exact hih.2.2 r hr
        · have hra : ranksAbove st.loaders (c :: rest) st.curr
              = ranksAbove st.loaders rest st.curr := by
            simp only [ranksAbove, List.filterMap_cons, hro]
            simp [h2]
          simp only [sweepStep, hf]
          rw [if_neg h1, if_neg h2, hra]
          exact ih st h

theorem sweepCatsAsync_next_min_gt :
    ∀ (cs : List Category) (st : SchedState), st.curr < st.next →
      ((sweepCatsAsync cs st).1.next = st.next ∨
        (sweepCatsAsync cs st).1.next ∈ ranksAbove st.loaders cs st.curr) ∧
      (sweepCatsAsync cs st).1.next ≤ st.next ∧
      ∀ r ∈ ranksAbove st.loaders cs st.curr, (sweepCatsAsync cs st).1.next ≤ r := by
  intro cs
  induction cs with
  | nil =>
    intro st h
    refine ⟨Or.inl rfl, le_refl _, ?_⟩
    intro r hr
    simp [ranksAbove] at hr
  | cons c rest ih =>
    intro st h
    simp only [sweepCatsAsync]
    cases hf : findLoader st.loaders c.key with
    | none =>
      have hro : rankOf st.loaders c.key = none := by simp [rankOf, hf]
      have hra : ranksAbove st.loaders (c :: rest) st.curr
          = ranksAbove st.loaders rest st.curr := by
        simp only [ranksAbove, List.filterMap_cons, hro]
      simp only [sweepStepAsync, hf]
      rw [hra]
      exact ih { st with err := st.err + 1 } h
    | some p =>
      obtain ⟨rank, ls⟩ := p
      have hro : rankOf st.loaders c.key = some rank := by simp [rankOf, hf]
      by_cases h1 : rank = st.curr
      · have hra : ranksAbove st.loaders (c :: rest) st.curr
            = ranksAbove st.loaders rest st.curr := by
          simp only [ranksAbove, List.filterMap_cons, hro, h1]
          simp
        simp only [sweepStepAsync, hf]
        rw [if_pos h1, hra]
        exact ih { st with entries := st.entries - 1 } h
      · by_cases h2 : st.curr < rank
        · have hne : ¬ (st.next = st.curr) := by omega
          have hra : ranksAbove st.loaders (c :: rest) st.curr
              = rank :: ranksAbove st.loaders rest st.curr := by
            simp only [ranksAbove, List.filterMap_cons, hro]
            simp [h2]
          simp only [sweepStepAsync, hf]
          rw [if_neg h1, if_pos h2]
          rw [show bumpNext st.curr st.next rank
              = if rank < st.next then rank else st.next from by
            unfold bumpNext
            rw [if_neg hne]]
          by_cases h3 : rank < st.next
          · rw [if_pos h3, hra]
            have hih := ih { st with next := rank } h2
            refine ⟨?_, ?_, ?_⟩
            · rcases hih.1 with hh | hh
              · exact Or.inr (by rw [hh]; exact List.mem_cons_self _ _)
              · exact Or.inr (List.mem_cons_of_mem _ hh)
            · exact le_trans hih.2.1 (le_of_lt h3)
            · intro r hr
              rcases List.mem_cons.mp hr with rfl | hr
              · exact hih.2.1
              · exact hih.2.2 r hr
          · rw [if_neg h3, hra]
            have hge : st.next ≤ rank := le_of_not_lt h3
            have hih := ih { st with next := st.next } h
            refine ⟨?_, ?_, ?_⟩
            · rcases hih.1 with hh | hh
              · exact Or.inl hh
              · exact Or.inr (List.mem_cons_of_mem _ hh)
            · exact hih.2.1
            · intro r hr
              rcases List.mem_cons.mp hr with rfl | hr
              · exact le_trans hih.2.1 hge
              · exact hih.2.2 r hr
        · have hra : ranksAbove st.loaders (c :: rest) st.curr
              = ranksAbove st.loaders rest st.curr := by
            simp only [ranksAbove, List.filterMap_cons, hro]
            simp [h2]
          simp only [sweepStepAsync, hf]
          rw [if_neg h1, if_neg h2, hra]
          exact ih st h

theorem sweepCatsAsync_next_min_eq :
    ∀ (cs : List Category) (st : SchedState), st.next = st.curr →
      (ranksAbove st.loaders cs st.curr = [] ∧ (sweepCatsAsync cs st).1.next = st.curr) ∨
      ((sweepCatsAsync cs st).1.next ∈ ranksAbove st.loaders cs st.curr ∧
       ∀ r ∈ ranksAbove st.loaders cs st.curr, (sweepCatsAsync cs st).1.next ≤ r) := by
  intro cs
  induction cs with
  | nil =>
    intro st h
    exact Or.inl ⟨rfl, h⟩
  | cons c rest ih =>
    intro st h
    simp only [sweepCatsAsync]
    cases hf : findLoader st.loaders c.key with
    | none =>
      have hro : rankOf st.loaders c.key = none := by simp [rankOf, hf]
      have hra : ranksAbove st.loaders (c :: rest) st.curr
          = ranksAbove st.loaders rest st.curr := by
        simp only [ranksAbove, List.filterMap_cons, hro]
      simp only [sweepStepAsync, hf]
      rw [hra]
      exact ih { st with err := st.err + 1 } h
    | some p =>
      obtain ⟨rank, ls⟩ := p
      have hro : rankOf st.loaders c.key = some rank := by simp [rankOf, hf]
      by_cases h1 : rank = st.curr
      · have hra : ranksAbove st.loaders (c :: rest) st.curr
            = ranksAbove st.loaders rest st.curr := by
          simp only [ranksAbove, List.filterMap_cons, hro, h1]
          simp
        simp only [sweepStepAsync, hf]
        rw [if_pos h1, hra]
        exact ih { st with entries := st.entries - 1 } h
      · by_cases h2 : st.curr < rank
        · have hra : ranksAbove st.loaders (c :: rest) st.curr
              = rank :: ranksAbove st.loaders rest st.curr := by
            simp only [ranksAbove, List.filterMap_cons, hro]
            simp [h2]
          simp only [sweepStepAsync, hf]
          rw [if_neg h1, if_pos h2]
          rw [show bumpNext st.curr st.next rank = rank from by
            unfold bumpNext
            rw [if_pos h]]
          have hih := sweepCatsAsync_next_min_gt rest { st with next := rank } h2
          rw [hra]
          refine Or.inr ⟨?_, ?_⟩
          · rcases hih.1 with hh | hh
            · exact hh ▸ List.mem_cons_self _ _
            · exact List.mem_cons_of_mem _ hh
          · intro r hr
            rcases List.mem_cons.mp hr with rfl | hr
            · exact hih.2.1
            · exact hih.2.2 r hr
        · have hra : ranksAbove st.loaders (c :: rest) st.curr
              = ranksAbove st.loaders rest st.curr := by
            simp only [ranksAbove, List.filterMap_cons, hro]
            simp [h2]
          simp only [sweepStepAsync, hf]
          rw [if_neg h1, if_neg h2, hra]
          exact ih st h

/-- C2: for every JSON directory, both scheduler variants dispatch
categories in nondecreasing priority-rank order (the ranks of the dispatch
trace form a `≤`-chain); in the asynchronous variant a `sync()` barrier —
which waits for every in-flight load to finish — separates any two
dispatches at different ranks; and each sweep starting with `next` parked at
`curr` computes in `next` the numerically smallest registered rank strictly
greater than `curr` (leaving `next = curr` exactly when no greater rank
exists), which becomes the next value of `curr`. Ranks need not be
contiguous. -/
theorem scheduler_priority_order (ok : String → String → Bool)
    (ls : List (String × Nat × LoaderState)) (dir cs : List Category)
    (fuel : Nat) (st : SchedState) (h : st.next = st.curr) :
    List.Chain' (· ≤ ·) (evRanks (loadDirectorySync ok ls dir fuel).2) ∧
    List.Chain' (· ≤ ·) (evRanks (loadDirectoryAsyncJson ls dir fuel).2) ∧
    List.Chain' dispatchAdj (loadDirectoryAsyncJson ls dir fuel).2 ∧
    ((ranksAbove st.loaders cs st.curr = [] ∧ (sweepCats ok cs st).1.next = st.curr) ∨
     ((sweepCats ok cs st).1.next ∈ ranksAbove st.loaders cs st.curr ∧
      ∀ r ∈ ranksAbove st.loaders cs st.curr, (sweepCats ok cs st).1.next ≤ r)) ∧
    ((ranksAbove st.loaders cs st.curr = [] ∧ (sweepCatsAsync cs st).1.next = st.curr) ∨
     ((sweepCatsAsync cs st).1.next ∈ ranksAbove st.loaders cs st.curr ∧
      ∀ r ∈ ranksAbove st.loaders cs st.curr, (sweepCatsAsync cs st).1.next ≤ r)) := by
  refine ⟨?_, ?_, ?_, sweepCats_next_min_eq ok cs st h,
    sweepCatsAsync_next_min_eq cs st h⟩
  · exact (loadLoop_sorted ok dir fuel
      { loaders := prescan dir ls, success := true,
        entries := dir.length, err := 0, curr := 0, next := 0 } (le_refl _)).1
  · unfold loadDirectoryAsyncJson
    rw [evRanks_append]
    refine List.Chain'.append
      ((loadLoopAsync_sorted dir fuel
        { loaders := prescan dir ls, success := true,
          entries := dir.length, err := 0, curr := 0, next := 0 } (le_refl _)).1)
      ?_ ?_
    · simp [evRanks]
    · intro x hx y hy
      simp [evRanks] at hy
  · unfold loadDirectoryAsyncJson
    refine List.Chain'.append (loadLoopAsync_adj dir fuel _) ?_ ?_
    · simp
    · intro x hx y hy
      have hb : Event.barrier = y := by simpa using hy
      rw [← hb]
      exact dispatchAdj_barrier_right x

/-- C2 witness at the concrete directory `overDir`. -/
theorem scheduler_priority_order_witness :
    List.Chain' (· ≤ ·)
      (evRanks (loadDirectorySync (fun _ _ => true) overLoaders overDir 8).2) ∧
    List.Chain' (· ≤ ·) (evRanks (loadDirectoryAsyncJson overLoaders overDir 8).2) ∧
    List.Chain' dispatchAdj (loadDirectoryAsyncJson overLoaders overDir 8).2 ∧
    ((ranksAbove sweepStart.loaders overDir sweepStart.curr = [] ∧
      (sweepCats (fun _ _ => true) overDir sweepStart).1.next = sweepStart.curr) ∨
     ((sweepCats (fun _ _ => true) overDir sweepStart).1.next ∈
        ranksAbove sweepStart.loaders overDir sweepStart.curr ∧
      ∀ r ∈ ranksAbove sweepStart.loaders overDir sweepStart.curr,
        (sweepCats (fun _ _ => true) overDir sweepStart).1.next ≤ r)) ∧
    ((ranksAbove sweepStart.loaders overDir sweepStart.curr = [] ∧
      (sweepCatsAsync overDir sweepStart).1.next = sweepStart.curr) ∨
     ((sweepCatsAsync overDir sweepStart).1.next ∈
        ranksAbove sweepStart.loaders overDir sweepStart.curr ∧
      ∀ r ∈ ranksAbove sweepStart.loaders overDir sweepStart.curr,
        (sweepCatsAsync overDir sweepStart).1.next ≤ r)) :=
  scheduler_priority_order (fun _ _ => true) overLoaders overDir overDir 8 sweepStart rfl

/-! ### Scheduler-level claims on concrete directories -/

/-- C6: the synchronous `loadDirectory` counts the single unknown-key
category `c` in `err` once per sweep — twice here, not once — which makes
the loop exit after dispatching only the rank-2 category `a`: the registered
category `b` (rank 3) is never dispatched, its loader ends with nothing
loaded and a reserved count stuck at 1. -/
theorem loadDirectory_err_overcount :
    (loadDirectorySync (fun _ _ => true) overLoaders overDir 8).1.err = 2 ∧
    (loadDirectorySync (fun _ _ => true) overLoaders overDir 8).2 =
      [Event.dispatch "a" 2] ∧
    (loadDirectorySync (fun _ _ => true) overLoaders overDir 8).1.success = false ∧
    findLoader (loadDirectorySync (fun _ _ => true) overLoaders overDir 8).1.loaders "b" =
      some (3, ⟨∅, ∅, 1⟩) ∧
    findLoader (loadDirectorySync (fun _ _ => true) overLoaders overDir 8).1.loaders "a" =
      some (2, ⟨{"x"}, ∅, 0⟩) := by
  decide

/-- C8: when the directory file cannot be opened and the callback is null,
the guard at CUAssetManager.cpp line 511 (which requires a non-null
callback) is skipped, so a worker task is queued that dereferences the null
reader; a file that opens but fails to parse likewise crashes inside the
queued task for any callback. Only the open-failure-with-callback corner
takes the intended early return. -/
theorem loadDirectoryAsync_null_reader_crash :
    (loadDirectoryAsyncPath false true false).taskQueued = true ∧
    (loadDirectoryAsyncPath false true false).taskCrashes = true ∧
    (loadDirectoryAsyncPath false true false).calls = [] ∧
    (loadDirectoryAsyncPath true false true).taskQueued = true ∧
    (loadDirectoryAsyncPath true false true).taskCrashes = true ∧
    (loadDirectoryAsyncPath false true true).calls = [("", false)] ∧
    (loadDirectoryAsyncPath false true true).taskQueued = false := by
  decide

/-- C9: after the guarded early return of `loadDirectoryAsync(path,
callback)` on an unopenable file, the failed load is over (the callback was
delivered, no task was queued) yet `_preload` is never reset, so
`AssetManager::waitCount()` keeps reporting the loader sum plus 1 forever —
here 1 for a manager whose only loader is fully complete. -/
theorem waitCount_preload_leak :
    (loadDirectoryAsyncPath false true true).calls = [("", false)] ∧
    (loadDirectoryAsyncPath false true true).taskQueued = false ∧
    (loadDirectoryAsyncPath false true true).preloadAfterReturn = true ∧
    (loadDirectoryAsyncPath false true true).preloadCleared = false ∧
    waitCount ⟨{"x"}, ∅, 0⟩ = 0 ∧
    managerWaitCount true [("f", 0, ⟨{"x"}, ∅, 0⟩)] = 1 ∧
    managerWaitCount false [("f", 0, ⟨{"x"}, ∅, 0⟩)] = 0 ∧
    managerLoadCount [("f", 0, ⟨{"x"}, ∅, 0⟩)] = 1 := by
  decide

end CUGL
